import Mathlib

/-!
Verification of `modules/linearized_convolution.py` (class `LinearizedConvolution`).

Shallow embedding conventions:
* Tensors are total functions from (batch, time, channel) indices to values in a
  commutative ring `R`; dimension sizes are carried separately.  Exact ring
  arithmetic models the ideal real arithmetic the numeric claims are about
  ("within floating-point tolerance" becomes exact equality).
* `nn.Conv1d` is embedded with its default hyper-parameters `stride=1`,
  `dilation=1`, `groups=1` (the module passes only `padding`-style kwargs);
  PyTorch's `Conv1d` computes cross-correlation, which is what `conv1d` below
  does.
* The mutable module state (`self.input_buffer`, `self._linearized_weight`) is
  an explicit `LCState` record threaded through the operations; a Python
  `RuntimeError` becomes `Except.error`.
* No forward pre-hooks are registered by this module, so the hook loop in
  `incremental_forward` is a no-op in the embedding.
-/

set_option linter.unusedSectionVars false

namespace LinearizedConv

/-- A tensor with batch, time and channel axes (the `B x T x C` calling
convention of the module), as a total function on indices. -/
abbrev Tensor3 (R : Type) := Nat → Nat → Nat → R

/-- A single time frame: batch and channel axes only. -/
abbrev Frame (R : Type) := Nat → Nat → R

/-- The immutable configuration and parameters of a `LinearizedConvolution`
layer: constructor arguments together with the learned weight
(shape `(out_channels, in_channels, kernel_width)`) and bias. -/
structure LC (R : Type) where
  in_channels : Nat
  out_channels : Nat
  kernel_width : Nat
  padding : Nat
  weight : Nat → Nat → Nat → R
  bias : Nat → R
  training : Bool

/-- The mutable state of the layer: `self.input_buffer` (shape
`(batch, kernel_width, in_channels)`) and the `self._linearized_weight`
cache. -/
structure LCState (R : Type) where
  input_buffer : Option (Tensor3 R)
  linearized : Option (Nat → Nat → R)

/-- State right after `__init__`: `clear_buffer()` sets the buffer to `None`
and `_linearized_weight` is initialized to `None`. -/
def initState (R : Type) : LCState R := ⟨none, none⟩

variable {R : Type} [CommRing R]

/-- Zero padding of a length-`T` signal with `p` zeros on each side
(the symmetric padding `nn.Conv1d` applies). -/
def xpad (x : Tensor3 R) (T p : Nat) : Tensor3 R := fun b u i =>
  if p ≤ u ∧ u < p + T then x b (u - p) i else 0

/-- The `nn.Conv1d` primitive (stride 1, dilation 1, groups 1) on an input of
time length `T`, indexed `(batch, out_channel, time)`; output time length is
`convOutLen`. -/
def conv1d (L : LC R) (x : Tensor3 R) (T : Nat) : Nat → Nat → Nat → R := fun b o t =>
  L.bias o + ∑ i ∈ Finset.range L.in_channels, ∑ k ∈ Finset.range L.kernel_width,
    L.weight o i k * xpad x T L.padding b (t + k) i

/-- Output time length of the convolution primitive. -/
def convOutLen (L : LC R) (T : Nat) : Nat := T + 2 * L.padding + 1 - L.kernel_width

/-- The general convolution path of `forward`: transpose `B x T x C` to
`B x C x T`, run the convolution primitive, transpose back. -/
def convPath (L : LC R) (x : Tensor3 R) (T : Nat) : Tensor3 R := fun b t o => conv1d L x T b o t

/-- Embedding of `forward(x)`: the convolution path for kernel width > 1, and
`F.linear(x, self.weight.squeeze(2), self.bias)` otherwise.  The time length
of the result is `convOutLen L T` in the first case and `T` in the second. -/
def forward (L : LC R) (x : Tensor3 R) (T : Nat) : Tensor3 R :=
  if 1 < L.kernel_width then convPath L x T
  else fun b t o =>
    L.bias o + ∑ i ∈ Finset.range L.in_channels, L.weight o i 0 * x b t i

/-- Time length of `forward`'s output. -/
def forwardOutLen (L : LC R) (T : Nat) : Nat :=
  if 1 < L.kernel_width then convOutLen L T else T

/-- Embedding of `remove_future_timesteps(x)` on a value of time length `T`: slicing
`x[:, :-padding, :]` keeps the first `T - padding` time steps (values
unchanged), so the embedding returns the tensor together with its new time
length.  It is a pure function of its arguments (it takes no `LCState`). -/
def remove_future_timesteps (L : LC R) (x : Tensor3 R) (T : Nat) : Tensor3 R × Nat :=
  if 1 < L.kernel_width ∧ 0 < L.padding then (x, T - L.padding) else (x, T)

/-- Linearization of a weight tensor with `nin` input channels:
`weight.transpose(1, 2).contiguous().view(nout, kw * nin)`, so entry
`(o, k * nin + i)` is `weight[o][i][k]`. -/
def linWOf (nin : Nat) (w : Nat → Nat → Nat → R) : Nat → Nat → R := fun o j =>
  w o (j % nin) (j / nin)

/-- The linearized weight of a layer. -/
def linW (L : LC R) : Nat → Nat → R := linWOf L.in_channels L.weight

/-- Embedding of `_get_linearized_weight`: serve the cache if present, otherwise compute
the linearized weight from the current weight and cache it. -/
def get_linearized_weight (L : LC R) (s : LCState R) : (Nat → Nat → R) × LCState R :=
  match s.linearized with
  | some w => (w, s)
  | none => (linW L, { s with linearized := some (linW L) })

/-- Embedding of `_clear_linearized_weight` (registered as a backward hook). -/
def clear_linearized_weight (s : LCState R) : LCState R := { s with linearized := none }

/-- Embedding of `clear_buffer()`. -/
def clear_buffer (s : LCState R) : LCState R := { s with input_buffer := none }

/-- Embedding of `reorder_buffer(new_order)`: `index_select(0, new_order)` on the buffer's
batch axis when a buffer exists, otherwise nothing. -/
def reorder_buffer (s : LCState R) (new_order : Nat → Nat) : LCState R :=
  match s.input_buffer with
  | none => s
  | some b => { s with input_buffer := some (fun i k c => b (new_order i) k c) }

/-- Embedding of `view(bsz, -1)` on a `(bsz, rows, ncols)` tensor: row-major flattening,
entry `j` is the tensor at row `j / ncols`, column `j % ncols`. -/
def flatten2 (ncols : Nat) (t : Tensor3 R) : Nat → Nat → R := fun b j =>
  t b (j / ncols) (j % ncols)

/-- Embedding of `F.linear(v, W, bias)` for a weight of `ncol` columns. -/
def flinear (ncol : Nat) (W : Nat → Nat → R) (bias : Nat → R) (v : Nat → Nat → R) :
    Nat → Nat → R := fun b o =>
  bias o + ∑ j ∈ Finset.range ncol, W o j * v b j

/-- The buffer update of `incremental_forward` for kernel width `kw`: allocate
a zero buffer when none exists, otherwise shift positions `1..kw-1` down to
`0..kw-2`; in both cases write the new frame at position `kw - 1`. -/
def shiftBuffer (kw : Nat) (old : Option (Tensor3 R)) (f : Frame R) : Tensor3 R := fun b k c =>
  if k = kw - 1 then f b c
  else
    match old with
    | none => 0
    | some ob => ob b (k + 1) c

/-- Message of the `RuntimeError` raised by `incremental_forward` in training
mode. -/
def inference_error_msg : String := "LinearizedConvolution only supports inference"

/-- Embedding of `incremental_forward(input)` on an input of shape `(bsz, inLen, dim)`:
guard against training mode, obtain the linearized weight, update the rolling
buffer (kernel width > 1) and apply `F.linear`.  The returned output is the
`(bsz, 1, out_channels)` result with its singleton time axis dropped. -/
def incremental_forward (L : LC R) (s : LCState R) (input : Tensor3 R) (inLen : Nat) :
    Except String ((Nat → Nat → R) × LCState R) :=
  if L.training then Except.error inference_error_msg
  else
    let ws := get_linearized_weight L s
    if 1 < L.kernel_width then
      let newbuf := shiftBuffer L.kernel_width ws.2.input_buffer (fun b c => input b (inLen - 1) c)
      Except.ok
        (flinear (L.kernel_width * L.in_channels) ws.1 L.bias (flatten2 L.in_channels newbuf),
          { ws.2 with input_buffer := some newbuf })
    else
      Except.ok
        (flinear (L.kernel_width * L.in_channels) ws.1 L.bias (flatten2 L.in_channels input),
          ws.2)

/-- One incremental step on a single frame (input of shape `(bsz, 1, dim)`). -/
def incStep (L : LC R) (s : LCState R) (f : Frame R) :
    Except String ((Nat → Nat → R) × LCState R) :=
  incremental_forward L s (fun b _ c => f b c) 1

/-- Run `incremental_forward` once per frame, collecting the outputs. -/
def runInc (L : LC R) (s : LCState R) :
    List (Frame R) → Except String (List (Nat → Nat → R) × LCState R)
  | [] => Except.ok ([], s)
  | f :: fs =>
    match incStep L s f with
    | Except.error e => Except.error e
    | Except.ok (o, s') =>
      match runInc L s' fs with
      | Except.error e => Except.error e
      | Except.ok (os, s'') => Except.ok (o :: os, s'')

/-- The state after one incremental step (unchanged when the step raises). -/
def stepState (L : LC R) (s : LCState R) (f : Frame R) : LCState R :=
  match incStep L s f with
  | Except.ok (_, s') => s'
  | Except.error _ => s

/-- The output of one incremental step (a default frame when the step
raises). -/
def stepOut (L : LC R) (s : LCState R) (f : Frame R) : Nat → Nat → R :=
  match incStep L s f with
  | Except.ok (o, _) => o
  | Except.error _ => fun _ _ => 0

/-- The final state after stepping through a list of frames.  In inference
mode no step raises and this agrees with the state component of `runInc`
(theorem `runInc_eq_ok`). -/
def runState (L : LC R) (s : LCState R) : List (Frame R) → LCState R
  | [] => s
  | f :: fs => runState L (stepState L s f) fs

/-- The per-step outputs of stepping through a list of frames.  In inference
mode this agrees with the output list of `runInc` (theorem
`runInc_eq_ok`). -/
def runOutputs (L : LC R) (s : LCState R) : List (Frame R) → List (Nat → Nat → R)
  | [] => []
  | f :: fs => stepOut L s f :: runOutputs L (stepState L s f) fs

/-- The `T` single-step inputs obtained by splitting a full sequence `x` of
time length `T` into frames. -/
def framesOf (x : Tensor3 R) (T : Nat) : List (Frame R) :=
  (List.range T).map (fun t b c => x b t c)

/-- Concatenating a list of single-frame outputs along the time axis. -/
def concatTime (outs : List (Nat → Nat → R)) : Tensor3 R := fun b t o =>
  (outs.getD t (fun _ _ => 0)) b o

/-- The cache either is empty or holds the linearization of the layer's
weight. -/
def CacheCoherent (L : LC R) (s : LCState R) : Prop :=
  ∀ w, s.linearized = some w → w = linW L

/-! ### Life cycle of the linearized-weight cache (for C9)

During training the weight tensor is mutated by the external optimizer, so
the cache life cycle is modelled on a state holding the current weight and
the cache, driven by the three events that touch them: a backward pass
(which fires the registered `_clear_linearized_weight` hook), an external
weight update, and a call to `_get_linearized_weight`. -/

/-- Current weight tensor (with its number of input channels) and the
`_linearized_weight` cache. -/
structure WState (R : Type) where
  nin : Nat
  weight : Nat → Nat → Nat → R
  linearized : Option (Nat → Nat → R)

/-- Events touching the weight or the cache. -/
inductive WEvent (R : Type) where
  | backward : WEvent R
  | optim : (Nat → Nat → Nat → R) → WEvent R
  | get : WEvent R

/-- The value `_get_linearized_weight` returns in state `s`: the cache when
non-empty, otherwise the linearization of the current weight. -/
def served (s : WState R) : Nat → Nat → R :=
  match s.linearized with
  | some w => w
  | none => linWOf s.nin s.weight

/-- Effect of one event: a backward pass runs the registered hook
(`_clear_linearized_weight`, i.e. the cache becomes empty), an optimizer step
replaces the weight, and `_get_linearized_weight` leaves the served value in
the cache (a no-op when the cache was already full). -/
def wStep (s : WState R) : WEvent R → WState R
  | WEvent.backward => { s with linearized := none }
  | WEvent.optim w => { s with weight := w }
  | WEvent.get => { s with linearized := some (served s) }

/-- Run a list of events. -/
def runW (s : WState R) : List (WEvent R) → WState R
  | [] => s
  | e :: evs => runW (wStep s e) evs

/-! ### Concrete instances used by witnesses and counterexamples -/

/-- A concrete layer: kernel width 3, causal padding 2, one channel,
weight `[[[1, 2, 3]]]`, zero bias, inference mode. -/
def egL : LC ℤ := {
  in_channels := 1
  out_channels := 1
  kernel_width := 3
  padding := 2
  weight := fun _ _ k => (k : ℤ) + 1
  bias := fun _ => 0
  training := false }

/-- The same layer in training mode. -/
def egLtrain : LC ℤ := { egL with training := true }

/-- A concrete input sequence: frame `t` holds the value `t + 1`. -/
def egX : Tensor3 ℤ := fun _ t _ => (t : ℤ) + 1

/-- A state with an allocated buffer. -/
def egBufState : LCState ℤ := ⟨some egX, none⟩

/-- A kernel-width-1 layer configured with positive padding: the
counterexample configuration for the `forward` fast path. -/
def cexL : LC ℤ := {
  in_channels := 1
  out_channels := 1
  kernel_width := 1
  padding := 1
  weight := fun _ _ _ => 1
  bias := fun _ => 0
  training := false }

/-- A constant-1 input. -/
def cexX : Tensor3 ℤ := fun _ _ _ => 1

/-- A concrete cache life-cycle state with an empty cache. -/
def egW : WState ℤ := ⟨1, fun _ _ k => (k : ℤ) + 2, none⟩

/-! ### Sum reindexing helpers -/

theorem sum_range_add (f : Nat → R) (a n : Nat) :
    ∑ j ∈ Finset.range (a + n), f j =
      (∑ j ∈ Finset.range a, f j) + ∑ i ∈ Finset.range n, f (a + i) := by
  induction n with
  | zero => simp
  | succ n ih => rw [Nat.add_succ, Finset.sum_range_succ, ih, Finset.sum_range_succ]; ring

theorem sum_range_mul (f : Nat → R) (m n : Nat) :
    ∑ j ∈ Finset.range (m * n), f j =
      ∑ k ∈ Finset.range m, ∑ i ∈ Finset.range n, f (k * n + i) := by
  induction m with
  | zero => simp
  | succ m ih => rw [Nat.succ_mul, sum_range_add, ih, Finset.sum_range_succ]

theorem flat_index_div (k i n : Nat) (hi : i < n) : (k * n + i) / n = k := by
  rw [Nat.mul_comm, Nat.mul_add_div (Nat.lt_of_le_of_lt (Nat.zero_le i) hi),
    Nat.div_eq_of_lt hi, Nat.add_zero]

theorem flat_index_mod (k i n : Nat) (hi : i < n) : (k * n + i) % n = i := by
  rw [Nat.mul_comm, Nat.mul_add_mod, Nat.mod_eq_of_lt hi]

omit [CommRing R] in
theorem linW_apply (L : LC R) (o k i : Nat) (hi : i < L.in_channels) :
    linW L o (k * L.in_channels + i) = L.weight o i k := by
  unfold linW linWOf
  rw [flat_index_div k i _ hi, flat_index_mod k i _ hi]

/-- Applying `F.linear` with the linearized weight over a flattened `(kw, nin)` window
is the double sum of `weight[o][i][k] * window[k][i]`. -/
theorem flinear_linW (L : LC R) (t : Tensor3 R) (b o : Nat) :
    flinear (L.kernel_width * L.in_channels) (linW L) L.bias (flatten2 L.in_channels t) b o =
      L.bias o + ∑ k ∈ Finset.range L.kernel_width, ∑ i ∈ Finset.range L.in_channels,
        L.weight o i k * t b k i := by
  unfold flinear flatten2
  rw [sum_range_mul]
  congr 1
  refine Finset.sum_congr rfl fun k _ => Finset.sum_congr rfl fun i hi => ?_
  rw [Finset.mem_range] at hi
  rw [linW_apply L o k i hi, flat_index_div k i _ hi, flat_index_mod k i _ hi]

/-! ### Step and run lemmas -/

omit [CommRing R] in
theorem get_linearized_weight_buffer (L : LC R) (s : LCState R) :
    (get_linearized_weight L s).2.input_buffer = s.input_buffer := by
  unfold get_linearized_weight
  cases s.linearized <;> rfl

omit [CommRing R] in
theorem get_linearized_weight_coherent (L : LC R) (s : LCState R) (hc : CacheCoherent L s) :
    get_linearized_weight L s = (linW L, ⟨s.input_buffer, some (linW L)⟩) := by
  obtain ⟨buf, lin⟩ := s
  cases lin with
  | none => rfl
  | some w => rw [get_linearized_weight, hc w rfl]

theorem incStep_ne_error (L : LC R) (s : LCState R) (f : Frame R) (htr : L.training = false)
    (e : String) : incStep L s f ≠ Except.error e := by
  intro h
  rw [incStep, incremental_forward, if_neg (by simp [htr])] at h
  by_cases hkw : 1 < L.kernel_width <;> simp [hkw] at h

theorem incStep_eq (L : LC R) (s : LCState R) (f : Frame R) (htr : L.training = false) :
    incStep L s f = Except.ok (stepOut L s f, stepState L s f) := by
  cases h : incStep L s f with
  | error e => exact absurd h (incStep_ne_error L s f htr e)
  | ok p =>
    obtain ⟨o, s'⟩ := p
    unfold stepOut stepState
    rw [incStep] at h ⊢
    rw [h]

theorem runInc_eq_ok (L : LC R) (fs : List (Frame R)) (htr : L.training = false) :
    ∀ s, runInc L s fs = Except.ok (runOutputs L s fs, runState L s fs) := by
  induction fs with
  | nil => intro s; rfl
  | cons f fs ih =>
    intro s
    simp only [runInc, incStep_eq L s f htr, ih (stepState L s f), runOutputs, runState]

theorem incremental_forward_big (L : LC R) (s : LCState R) (input : Tensor3 R) (n : Nat)
    (htr : L.training = false) (hk : 1 < L.kernel_width) :
    incremental_forward L s input n = Except.ok
      (flinear (L.kernel_width * L.in_channels) (get_linearized_weight L s).1 L.bias
        (flatten2 L.in_channels
          (shiftBuffer L.kernel_width s.input_buffer (fun b c => input b (n - 1) c))),
        ⟨some (shiftBuffer L.kernel_width s.input_buffer (fun b c => input b (n - 1) c)),
          (get_linearized_weight L s).2.linearized⟩) := by
  rw [incremental_forward, if_neg (by simp [htr])]
  simp only [if_pos hk, get_linearized_weight_buffer]

theorem incStep_big (L : LC R) (s : LCState R) (f : Frame R)
    (htr : L.training = false) (hk : 1 < L.kernel_width) :
    incStep L s f = Except.ok
      (flinear (L.kernel_width * L.in_channels) (get_linearized_weight L s).1 L.bias
        (flatten2 L.in_channels (shiftBuffer L.kernel_width s.input_buffer f)),
        ⟨some (shiftBuffer L.kernel_width s.input_buffer f),
          (get_linearized_weight L s).2.linearized⟩) :=
  incremental_forward_big L s (fun b _ c => f b c) 1 htr hk

theorem stepState_buffer (L : LC R) (s : LCState R) (f : Frame R)
    (htr : L.training = false) (hk : 1 < L.kernel_width) :
    (stepState L s f).input_buffer = some (shiftBuffer L.kernel_width s.input_buffer f) := by
  unfold stepState
  rw [incStep_big L s f htr hk]

theorem stepOut_big (L : LC R) (s : LCState R) (f : Frame R)
    (htr : L.training = false) (hk : 1 < L.kernel_width) (hc : CacheCoherent L s) (b o : Nat) :
    stepOut L s f b o =
      L.bias o + ∑ k ∈ Finset.range L.kernel_width, ∑ i ∈ Finset.range L.in_channels,
        L.weight o i k * shiftBuffer L.kernel_width s.input_buffer f b k i := by
  unfold stepOut
  rw [incStep_big L s f htr hk, get_linearized_weight_coherent L s hc]
  exact flinear_linW L (shiftBuffer L.kernel_width s.input_buffer f) b o

omit [CommRing R] in
theorem initState_coherent (L : LC R) : CacheCoherent L (initState R) := by
  intro w hw
  exact absurd hw (by simp [initState])

theorem stepState_linearized (L : LC R) (s : LCState R) (f : Frame R) :
    (stepState L s f).linearized = s.linearized ∨
      (stepState L s f).linearized = some (linW L) := by
  obtain ⟨buf, lin⟩ := s
  by_cases htr : L.training = true
  · left
    simp [stepState, incStep, incremental_forward, htr]
  · cases lin with
    | none =>
      right
      by_cases hk : 1 < L.kernel_width <;>
        simp [stepState, incStep, incremental_forward, htr, hk, get_linearized_weight]
    | some w =>
      left
      by_cases hk : 1 < L.kernel_width <;>
        simp [stepState, incStep, incremental_forward, htr, hk, get_linearized_weight]

theorem stepState_coherent (L : LC R) (s : LCState R) (f : Frame R)
    (hc : CacheCoherent L s) : CacheCoherent L (stepState L s f) := by
  intro w hw
  cases stepState_linearized L s f with
  | inl h => exact hc w (h ▸ hw)
  | inr h =>
    rw [h] at hw
    exact (Option.some.inj hw).symm

theorem runState_coherent (L : LC R) (fs : List (Frame R)) :
    ∀ s, CacheCoherent L s → CacheCoherent L (runState L s fs) := by
  induction fs with
  | nil => exact fun s hc => hc
  | cons f fs ih => exact fun s hc => ih (stepState L s f) (stepState_coherent L s f hc)

omit [CommRing R] in
theorem framesOf_length (x : Tensor3 R) (T : Nat) : (framesOf x T).length = T := by
  simp [framesOf]

omit [CommRing R] in
theorem framesOf_succ (x : Tensor3 R) (T : Nat) :
    framesOf x (T + 1) = framesOf x T ++ [fun b c => x b T c] := by
  unfold framesOf
  rw [List.range_succ, List.map_append]
  rfl

theorem runState_append (L : LC R) (as bs : List (Frame R)) :
    ∀ s, runState L s (as ++ bs) = runState L (runState L s as) bs := by
  induction as with
  | nil => intro s; rfl
  | cons f as ih =>
    intro s
    rw [List.cons_append, runState, runState, ih]

theorem runOutputs_append (L : LC R) (as bs : List (Frame R)) :
    ∀ s, runOutputs L s (as ++ bs) = runOutputs L s as ++ runOutputs L (runState L s as) bs := by
  induction as with
  | nil => intro s; rfl
  | cons f as ih =>
    intro s
    rw [List.cons_append, runOutputs, runOutputs, ih, runState, List.cons_append]

theorem runOutputs_length (L : LC R) (fs : List (Frame R)) :
    ∀ s, (runOutputs L s fs).length = fs.length := by
  induction fs with
  | nil => intro s; rfl
  | cons f fs ih =>
    intro s
    rw [runOutputs, List.length_cons, List.length_cons, ih]

omit [CommRing R] in
theorem getD_append_lt {A : Type} (l l2 : List A) (d : A) (n : Nat) (h : n < l.length) :
    (l ++ l2).getD n d = l.getD n d := by
  induction l generalizing n with
  | nil => exact absurd h (by simp)
  | cons a l ih =>
    cases n with
    | zero => rfl
    | succ n =>
      rw [List.cons_append, List.getD_cons_succ, List.getD_cons_succ]
      exact ih n (Nat.lt_of_succ_lt_succ h)

omit [CommRing R] in
theorem getD_append_self {A : Type} (l : List A) (a : A) (d : A) (n : Nat) (h : n = l.length) :
    (l ++ [a]).getD n d = a := by
  subst h
  induction l with
  | nil => rfl
  | cons b l ih => simpa using ih

/-- Buffer contents after a fresh run over the first `t + 1` frames of `x`:
position `k` holds frame `t + k - (kernel_width - 1)`, or zero when that
frame lies before the start of the sequence. -/
theorem runState_frames_buffer (L : LC R) (x : Tensor3 R) (htr : L.training = false)
    (hk : 1 < L.kernel_width) (t : Nat) :
    ∃ bf, (runState L (initState R) (framesOf x (t + 1))).input_buffer = some bf ∧
      ∀ b k c, k < L.kernel_width →
        bf b k c =
          if L.kernel_width - 1 ≤ t + k then x b (t + k - (L.kernel_width - 1)) c else 0 := by
  induction t with
  | zero =>
    refine ⟨shiftBuffer L.kernel_width none (fun b c => x b 0 c), ?_, ?_⟩
    · have h1 : framesOf x 1 = [fun b c => x b 0 c] := by
        unfold framesOf
        rfl
      rw [h1, runState, runState, stepState_buffer L _ _ htr hk]
      rfl
    · intro b k c hkk
      unfold shiftBuffer
      by_cases hlast : k = L.kernel_width - 1
      · rw [if_pos hlast, if_pos (by omega)]
        have h0 : 0 + k - (L.kernel_width - 1) = 0 := by omega
        rw [h0]
      · rw [if_neg hlast, if_neg (by omega)]
  | succ t ih =>
    obtain ⟨bf, hbf, hval⟩ := ih
    refine ⟨shiftBuffer L.kernel_width (some bf) (fun b c => x b (t + 1) c), ?_, ?_⟩
    · rw [framesOf_succ, runState_append, runState, runState,
        stepState_buffer L _ _ htr hk, hbf]
    · intro b k c hkk
      unfold shiftBuffer
      by_cases hlast : k = L.kernel_width - 1
      · rw [if_pos hlast, if_pos (by omega)]
        have h1 : t + 1 + k - (L.kernel_width - 1) = t + 1 := by omega
        rw [h1]
      · rw [if_neg hlast]
        show bf b (k + 1) c = _
        rw [hval b (k + 1) c (by omega)]
        have h2 : t + (k + 1) = t + 1 + k := by omega
        rw [h2]

/-- The output of incremental step `t` of a fresh run over `x`: the
causal window ending at frame `t`, dotted with the weight. -/
theorem run_output_formula (L : LC R) (x : Tensor3 R) (htr : L.training = false)
    (hk : 1 < L.kernel_width) (t b o : Nat) :
    stepOut L (runState L (initState R) (framesOf x t)) (fun b c => x b t c) b o =
      L.bias o + ∑ k ∈ Finset.range L.kernel_width, ∑ i ∈ Finset.range L.in_channels,
        L.weight o i k *
          (if L.kernel_width - 1 ≤ t + k then x b (t + k - (L.kernel_width - 1)) i else 0) := by
  obtain ⟨bf, hbf, hval⟩ := runState_frames_buffer L x htr hk t
  have hcoh : CacheCoherent L (runState L (initState R) (framesOf x t)) :=
    runState_coherent L _ _ (initState_coherent L)
  have hS : runState L (initState R) (framesOf x (t + 1)) =
      stepState L (runState L (initState R) (framesOf x t)) (fun b c => x b t c) := by
    rw [framesOf_succ, runState_append, runState, runState]
  rw [hS, stepState_buffer L _ _ htr hk] at hbf
  have hbf2 :
      shiftBuffer L.kernel_width (runState L (initState R) (framesOf x t)).input_buffer
        (fun b c => x b t c) = bf := Option.some.inj hbf
  rw [stepOut_big L _ _ htr hk hcoh b o, hbf2]
  congr 1
  refine Finset.sum_congr rfl fun k hkm => Finset.sum_congr rfl fun i _ => ?_
  rw [Finset.mem_range] at hkm
  rw [hval b k i hkm]

/-- Within the trimmed region of `forward`: at time `t < T` with causal padding
`kernel_width - 1`, the convolution output is the same causal window dotted
with the weight. -/
theorem forward_causal_formula (L : LC R) (x : Tensor3 R) (T b t o : Nat)
    (hk : 1 < L.kernel_width) (hp : L.padding = L.kernel_width - 1) (ht : t < T) :
    forward L x T b t o =
      L.bias o + ∑ k ∈ Finset.range L.kernel_width, ∑ i ∈ Finset.range L.in_channels,
        L.weight o i k *
          (if L.kernel_width - 1 ≤ t + k then x b (t + k - (L.kernel_width - 1)) i else 0) := by
  unfold forward convPath conv1d xpad
  rw [if_pos hk, Finset.sum_comm]
  congr 1
  refine Finset.sum_congr rfl fun k hkm => Finset.sum_congr rfl fun i _ => ?_
  rw [Finset.mem_range] at hkm
  rw [hp]
  by_cases hc : L.kernel_width - 1 ≤ t + k
  · rw [if_pos ⟨hc, by omega⟩, if_pos hc]
  · rw [if_neg (fun hand => hc hand.1), if_neg hc]

/-- The `t`-th concatenated output of a fresh incremental run over the first
`T` frames is the output of step `t`. -/
theorem runOutputs_getD (L : LC R) (x : Tensor3 R) (htr : L.training = false) (T t : Nat)
    (ht : t < T) (d : Nat → Nat → R) :
    (runOutputs L (initState R) (framesOf x T)).getD t d =
      stepOut L (runState L (initState R) (framesOf x t)) (fun b c => x b t c) := by
  induction T with
  | zero => omega
  | succ T ih =>
    rw [framesOf_succ, runOutputs_append]
    by_cases hlt : t < T
    · rw [getD_append_lt _ _ _ _ (by rw [runOutputs_length, framesOf_length]; exact hlt)]
      exact ih hlt
    · have hteq : t = T := by omega
      subst hteq
      rw [runOutputs, runOutputs, getD_append_self _ _ _ _
        (by rw [runOutputs_length, framesOf_length])]

/-! ### Claim theorems -/

/-- C3: the linearized weight is the `(out, in, kernel)` weight with kernel
and input-channel axes transposed and flattened — entry `(o, k * nin + i)`
equals `weight[o][i][k]` — and the linear projection of a flattened
`kernel_width`-frame window by this matrix (plus bias) equals the 1-D
convolution of the weight over that window (the convolution primitive, no
padding, at its single valid position). -/
theorem linearized_weight_matches_conv (L : LC R) (win : Tensor3 R) (b o k i : Nat)
    (hk : k < L.kernel_width) (hi : i < L.in_channels) :
    linW L o (k * L.in_channels + i) = L.weight o i k ∧
    flinear (L.kernel_width * L.in_channels) (linW L) L.bias (flatten2 L.in_channels win) b o =
      conv1d { L with padding := 0 } win L.kernel_width b o 0 := by
  refine ⟨linW_apply L o k i hi, ?_⟩
  rw [flinear_linW]
  unfold conv1d xpad
  rw [Finset.sum_comm]
  congr 1
  refine Finset.sum_congr rfl fun k2 _ => Finset.sum_congr rfl fun i2 hi2 => ?_
  rw [Finset.mem_range] at hi2
  simp [hi2]

/-- Witness for C3 at the concrete layer `egL` and window `egX`. -/
theorem linearized_weight_matches_conv_witness :
    linW egL 0 (2 * egL.in_channels + 0) = egL.weight 0 0 2 ∧
    flinear (egL.kernel_width * egL.in_channels) (linW egL) egL.bias
        (flatten2 egL.in_channels egX) 0 0 =
      conv1d { egL with padding := 0 } egX egL.kernel_width 0 0 0 :=
  linearized_weight_matches_conv egL egX 0 0 2 0 (by decide) (by decide)

/-- C2 counterexample: for a kernel-width-1 layer configured with padding 1,
`forward` (the direct matrix-multiply path, which ignores padding) differs
from the general convolution path (transpose, convolution primitive with the
configured padding, transpose back) already at batch 0, time 0, channel 0. -/
theorem forward_kw1_neq_convPath_with_padding :
    forward cexL cexX 1 0 0 0 ≠ convPath cexL cexX 1 0 0 0 := by decide

/-- C2 (amended): when kernel width is 1 and the configured padding is 0,
`forward(x)` — the direct matrix multiply by the weight with its trailing
singleton kernel dimension removed, plus bias — equals the general
convolution path on the same input and weights at every valid position. -/
theorem forward_kw1_matches_convPath (L : LC R) (x : Tensor3 R) (T b t o : Nat)
    (hk : L.kernel_width = 1) (hp : L.padding = 0) (ht : t < T) :
    forward L x T b t o = convPath L x T b t o := by
  unfold forward convPath conv1d xpad
  rw [if_neg (by omega)]
  congr 1
  refine Finset.sum_congr rfl fun i _ => ?_
  rw [hk, Finset.sum_range_one]
  simp [hp, ht]

/-- Witness for C2's amended theorem at a concrete padding-0 layer. -/
theorem forward_kw1_matches_convPath_witness :
    forward { cexL with padding := 0 } egX 3 0 1 0 =
      convPath { cexL with padding := 0 } egX 3 0 1 0 :=
  forward_kw1_matches_convPath { cexL with padding := 0 } egX 3 0 1 0 rfl rfl (by decide)

/-- C4: `incremental_forward` fails with the invalid-operation error exactly
when the layer is in training mode, and in that case the result is
independent of the layer state — the guard fires before the input buffer or
the linearized-weight cache is read or written, so the state is unchanged
(in the embedding no successor state is produced on the error path). -/
theorem incremental_forward_training_guard (L : LC R) (input : Tensor3 R) (n : Nat) :
    (∀ s : LCState R,
        incremental_forward L s input n = Except.error inference_error_msg ↔
          L.training = true) ∧
    (L.training = true →
      ∀ s s' : LCState R, incremental_forward L s input n = incremental_forward L s' input n) := by
  constructor
  · intro s
    constructor
    · intro h
      by_contra htr
      rw [Bool.not_eq_true] at htr
      rw [incremental_forward, if_neg (by simp [htr])] at h
      by_cases hkw : 1 < L.kernel_width <;> simp [hkw] at h
    · intro h
      rw [incremental_forward, if_pos h]
  · intro h s s'
    rw [incremental_forward, incremental_forward, if_pos h, if_pos h]

/-- Witness for C4: the training-mode layer `egLtrain` errors from any state,
identically across states. -/
theorem incremental_forward_training_guard_witness :
    (incremental_forward egLtrain (initState ℤ) egX 1 = Except.error inference_error_msg) ∧
    incremental_forward egLtrain (initState ℤ) egX 1 =
      incremental_forward egLtrain egBufState egX 1 :=
  ⟨((incremental_forward_training_guard egLtrain egX 1).1 (initState ℤ)).2 rfl,
    (incremental_forward_training_guard egLtrain egX 1).2 rfl (initState ℤ) egBufState⟩

/-- C5: `remove_future_timesteps` is pure (it takes no layer state and its
result depends only on its arguments); when kernel width > 1 and the
configured padding is positive it removes exactly the last `padding` time
steps — the time length drops from `T` to `T - padding` and every surviving
entry is unchanged — and in every other case it returns its input
unchanged. -/
theorem remove_future_timesteps_pure (L : LC R) (x : Tensor3 R) (T b t o : Nat) :
    ((1 < L.kernel_width ∧ 0 < L.padding) →
        (remove_future_timesteps L x T).2 = T - L.padding ∧
        (t < T - L.padding → (remove_future_timesteps L x T).1 b t o = x b t o)) ∧
    (¬(1 < L.kernel_width ∧ 0 < L.padding) → remove_future_timesteps L x T = (x, T)) := by
  unfold remove_future_timesteps
  constructor
  · intro h
    rw [if_pos h]
    exact ⟨rfl, fun _ => rfl⟩
  · intro h
    rw [if_neg h]

/-- Witness for C5 at the concrete layer `egL` (kernel width 3, padding 2),
time length 5. -/
theorem remove_future_timesteps_pure_witness :
    (remove_future_timesteps egL egX 5).2 = 5 - egL.padding ∧
    (1 < 5 - egL.padding → (remove_future_timesteps egL egX 5).1 0 1 0 = egX 0 1 0) :=
  (remove_future_timesteps_pure egL egX 5 0 1 0).1 (by decide)

/-- C7: `reorder_buffer(new_order)` is a no-op when no buffer has been
allocated (in particular right after construction or `clear_buffer`), and
otherwise replaces the buffer so that batch row `i` of the new buffer is
batch row `new_order i` of the old buffer (duplicates allowed), changing no
other state. -/
theorem reorder_buffer_spec (s : LCState R) (ord : Nat → Nat) :
    (s.input_buffer = none → reorder_buffer s ord = s) ∧
    (∀ bf, s.input_buffer = some bf →
      reorder_buffer s ord = { s with input_buffer := some (fun i k c => bf (ord i) k c) }) := by
  constructor
  · intro h
    unfold reorder_buffer
    rw [h]
  · intro bf h
    unfold reorder_buffer
    rw [h]

/-- Witness for C7: the no-op case on a cleared state and the reindexing case
on a state with a buffer. -/
theorem reorder_buffer_spec_witness :
    reorder_buffer (clear_buffer egBufState) (fun _ => 0) = clear_buffer egBufState ∧
    reorder_buffer egBufState (fun _ => 0) =
      { egBufState with input_buffer := some (fun _ k c => egX 0 k c) } :=
  ⟨(reorder_buffer_spec (clear_buffer egBufState) (fun _ => 0)).1 rfl,
    (reorder_buffer_spec egBufState (fun _ => 0)).2 egX rfl⟩

/-- C1: with causal padding `kernel_width - 1` configured and kernel
width > 1, running `incremental_forward` once per time step on a fresh
(cleared) buffer over the `T` frames of `x` succeeds, and concatenating the
`T` outputs along the time axis equals
`remove_future_timesteps(forward(full_sequence))` — both sides have time
length `T` and agree at every batch `b`, time `t < T`, channel `o`. -/
theorem incremental_matches_removed_forward (L : LC R) (x : Tensor3 R) (T b t o : Nat)
    (hk : 1 < L.kernel_width) (hp : L.padding = L.kernel_width - 1)
    (htr : L.training = false) (ht : t < T) :
    runInc L (initState R) (framesOf x T) =
      Except.ok (runOutputs L (initState R) (framesOf x T),
        runState L (initState R) (framesOf x T)) ∧
    (runOutputs L (initState R) (framesOf x T)).length = T ∧
    (remove_future_timesteps L (forward L x T) (convOutLen L T)).2 = T ∧
    concatTime (runOutputs L (initState R) (framesOf x T)) b t o =
      (remove_future_timesteps L (forward L x T) (convOutLen L T)).1 b t o := by
  refine ⟨runInc_eq_ok L _ htr _, by rw [runOutputs_length, framesOf_length], ?_, ?_⟩
  · unfold remove_future_timesteps convOutLen
    rw [if_pos ⟨hk, by omega⟩]
    omega
  · unfold concatTime
    rw [runOutputs_getD L x htr T t ht, run_output_formula L x htr hk t b o]
    unfold remove_future_timesteps
    rw [if_pos ⟨hk, by omega⟩]
    exact (forward_causal_formula L x T b t o hk hp ht).symm

/-- Witness for C1 at the concrete causal layer `egL` (kernel width 3,
padding 2) on the 4-frame sequence `egX`. -/
theorem incremental_matches_removed_forward_witness :
    runInc egL (initState ℤ) (framesOf egX 4) =
      Except.ok (runOutputs egL (initState ℤ) (framesOf egX 4),
        runState egL (initState ℤ) (framesOf egX 4)) ∧
    (runOutputs egL (initState ℤ) (framesOf egX 4)).length = 4 ∧
    (remove_future_timesteps egL (forward egL egX 4) (convOutLen egL 4)).2 = 4 ∧
    concatTime (runOutputs egL (initState ℤ) (framesOf egX 4)) 0 2 0 =
      (remove_future_timesteps egL (forward egL egX 4) (convOutLen egL 4)).1 0 2 0 :=
  incremental_matches_removed_forward egL egX 4 0 2 0 (by decide) rfl rfl (by decide)

/-- C6: for kernel width > 1 a successful `incremental_forward` call always
leaves an allocated buffer whose last position holds the newest input frame
and whose earlier position `k` holds zero when no buffer existed (fresh
zero-filled allocation) and the old position `k + 1` otherwise (shift by one,
dropping the oldest frame); consequently, over a fresh run, after `t + 1`
steps the buffer holds the most recent `kernel_width` frames, zero-padded at
the front for the first steps. -/
theorem incremental_forward_buffer_update (L : LC R) (s : LCState R) (input : Tensor3 R)
    (n : Nat) (x : Tensor3 R) (t : Nat) (hk : 1 < L.kernel_width) (htr : L.training = false) :
    (∃ out s', incremental_forward L s input n = Except.ok (out, s') ∧
      ∃ nb, s'.input_buffer = some nb ∧
        ∀ b k c, k < L.kernel_width →
          nb b k c =
            if k = L.kernel_width - 1 then input b (n - 1) c
            else
              match s.input_buffer with
              | none => 0
              | some ob => ob b (k + 1) c) ∧
    ∃ bf, (runState L (initState R) (framesOf x (t + 1))).input_buffer = some bf ∧
      ∀ b k c, k < L.kernel_width →
        bf b k c =
          if L.kernel_width - 1 ≤ t + k then x b (t + k - (L.kernel_width - 1)) c else 0 := by
  refine ⟨⟨_, _, incremental_forward_big L s input n htr hk, ?_⟩,
    runState_frames_buffer L x htr hk t⟩
  refine ⟨shiftBuffer L.kernel_width s.input_buffer (fun b c => input b (n - 1) c), rfl, ?_⟩
  intro b k c _
  rfl

/-- Witness for C6 at `egL`, from a state with an existing buffer. -/
theorem incremental_forward_buffer_update_witness :
    (∃ out s', incremental_forward egL egBufState egX 1 = Except.ok (out, s') ∧
      ∃ nb, s'.input_buffer = some nb ∧
        ∀ b k c, k < egL.kernel_width →
          nb b k c =
            if k = egL.kernel_width - 1 then egX b (1 - 1) c
            else
              match egBufState.input_buffer with
              | none => 0
              | some ob => ob b (k + 1) c) ∧
    ∃ bf, (runState egL (initState ℤ) (framesOf egX (1 + 1))).input_buffer = some bf ∧
      ∀ b k c, k < egL.kernel_width →
        bf b k c =
          if egL.kernel_width - 1 ≤ 1 + k then egX b (1 + k - (egL.kernel_width - 1)) c else 0 :=
  incremental_forward_buffer_update egL egBufState egX 1 egX 1 (by decide) rfl

/-- C8: two-run equivalence of `clear_buffer`: after arbitrary prior
incremental activity (a run over any frame list `gs` from the freshly
constructed state) followed by `clear_buffer`, a run over `fs` produces
exactly the per-step outputs of the same run on a layer that never buffered
anything. -/
theorem clear_buffer_fresh_equivalence (L : LC R) (gs fs : List (Frame R))
    (htr : L.training = false) :
    runOutputs L (clear_buffer (runState L (initState R) gs)) fs =
      runOutputs L (initState R) fs := by
  have hc : CacheCoherent L (clear_buffer (runState L (initState R) gs)) := by
    intro w hw
    exact runState_coherent L gs (initState R) (initState_coherent L) w hw
  cases fs with
  | nil => rfl
  | cons f fs =>
    have hstep : incStep L (clear_buffer (runState L (initState R) gs)) f =
        incStep L (initState R) f := by
      generalize hs : clear_buffer (runState L (initState R) gs) = s at hc
      have hb : s.input_buffer = none := by rw [← hs]; rfl
      obtain ⟨buf, lin⟩ := s
      simp only [LCState.input_buffer] at hb
      subst hb
      cases lin with
      | none => rfl
      | some w =>
        rw [hc w rfl]
        rw [incStep, incStep, incremental_forward, incremental_forward]
        by_cases h1 : L.training = true
        · rw [if_pos h1, if_pos h1]
        · rw [if_neg h1, if_neg h1]
          rfl
    have ho : stepOut L (clear_buffer (runState L (initState R) gs)) f =
        stepOut L (initState R) f := by
      unfold stepOut
      rw [hstep]
    have hs2 : stepState L (clear_buffer (runState L (initState R) gs)) f =
        stepState L (initState R) f := by
      unfold stepState
      rw [hstep, incStep_eq L (initState R) f htr]
    rw [runOutputs, runOutputs, ho, hs2]

/-- Witness for C8: a prior 2-step run at `egL`, cleared, then a 2-step run
matches the fresh run. -/
theorem clear_buffer_fresh_equivalence_witness :
    runOutputs egL (clear_buffer (runState egL (initState ℤ) (framesOf egX 2)))
        (framesOf egX 2) =
      runOutputs egL (initState ℤ) (framesOf egX 2) :=
  clear_buffer_fresh_equivalence egL (framesOf egX 2) (framesOf egX 2) rfl

/-- C9: a backward pass always clears the linearized-weight cache (the
registered hook `_clear_linearized_weight` empties it, on the layer state and
in the cache life-cycle model); a `_get_linearized_weight` call on an empty
cache computes from the current weight; and whatever the cache serves was
computed, by a get event, from the weight current at that get, with no
backward pass in between — so a linearization computed before a backward
pass is never served after it. -/
theorem linearized_cache_coherence (s0 : WState R) (evs : List (WEvent R)) (w : Nat → Nat → R)
    (h0 : s0.linearized = none) (hw : (runW s0 evs).linearized = some w) :
    (∀ s : LCState R, (clear_linearized_weight s).linearized = none) ∧
    (∀ s : WState R, (wStep s WEvent.backward).linearized = none) ∧
    (∀ s : WState R, s.linearized = none → served s = linWOf s.nin s.weight) ∧
    ∃ pre post, evs = pre ++ WEvent.get :: post ∧
      w = linWOf (runW s0 pre).nin (runW s0 pre).weight ∧
      WEvent.backward ∉ post := by
  refine ⟨fun s => rfl, fun s => rfl, fun s hs => by rw [served, hs], ?_⟩
  have main : ∀ (evs : List (WEvent R)) (s0 : WState R),
      (runW s0 evs).linearized = some w →
      (∃ pre post, evs = pre ++ WEvent.get :: post ∧
        w = linWOf (runW s0 pre).nin (runW s0 pre).weight ∧ WEvent.backward ∉ post) ∨
      (s0.linearized = some w ∧ WEvent.backward ∉ evs) := by
    intro evs
    induction evs with
    | nil => exact fun s hs => Or.inr ⟨hs, by simp⟩
    | cons e evs ih =>
      intro s hs
      cases ih (wStep s e) hs with
      | inl h =>
        obtain ⟨pre, post, hsplit, hval, hnb⟩ := h
        refine Or.inl ⟨e :: pre, post, by rw [List.cons_append, hsplit], hval, hnb⟩
      | inr h =>
        obtain ⟨hlin, hnb⟩ := h
        cases e with
        | backward => exact absurd hlin (by simp [wStep])
        | optim w2 =>
          refine Or.inr ⟨hlin, ?_⟩
          intro hmem
          rcases List.mem_cons.mp hmem with h | h
          · exact WEvent.noConfusion h
          · exact hnb h
        | get =>
          simp only [wStep] at hlin
          cases hcache : s.linearized with
          | some c =>
            refine Or.inr ⟨?_, ?_⟩
            · simp only [served, hcache] at hlin
              exact hlin
            · intro hmem
              rcases List.mem_cons.mp hmem with h | h
              · exact WEvent.noConfusion h
              · exact hnb h
          | none =>
            refine Or.inl ⟨[], evs, rfl, ?_, hnb⟩
            simp only [served, hcache] at hlin
            exact (Option.some.inj hlin).symm
  cases main evs s0 hw with
  | inl h => exact h
  | inr h => rw [h0] at h; exact absurd h.1 (by simp)

/-- Witness for C9: a single get event on an empty cache at a concrete
weight. -/
theorem linearized_cache_coherence_witness :
    (∀ s : LCState ℤ, (clear_linearized_weight s).linearized = none) ∧
    (∀ s : WState ℤ, (wStep s WEvent.backward).linearized = none) ∧
    (∀ s : WState ℤ, s.linearized = none → served s = linWOf s.nin s.weight) ∧
    ∃ pre post, ([WEvent.get] : List (WEvent ℤ)) = pre ++ WEvent.get :: post ∧
      linWOf egW.nin egW.weight =
        linWOf (runW egW pre).nin (runW egW pre).weight ∧
      WEvent.backward ∉ post :=
  linearized_cache_coherence egW [WEvent.get] (linWOf egW.nin egW.weight) rfl rfl

/-- C10: for kernel width > 1, `incremental_forward` reads only the final
time frame `input[:, -1, :]` of its input: on an input of time length `n`
the call returns exactly the result (output and successor state) of the call
on the single final frame. -/
theorem incremental_forward_reads_last_frame (L : LC R) (s : LCState R) (input : Tensor3 R)
    (n : Nat) (hk : 1 < L.kernel_width) :
    incremental_forward L s input n =
      incremental_forward L s (fun b _ c => input b (n - 1) c) 1 := by
  by_cases htr : L.training = true
  · rw [incremental_forward, incremental_forward, if_pos htr, if_pos htr]
  · rw [incremental_forward_big L s input n (by simp at htr; exact htr) hk,
      incremental_forward_big L s (fun b _ c => input b (n - 1) c) 1
        (by simp at htr; exact htr) hk]

/-- Witness for C10 at `egL` with a 3-frame input. -/
theorem incremental_forward_reads_last_frame_witness :
    incremental_forward egL (initState ℤ) egX 3 =
      incremental_forward egL (initState ℤ) (fun b _ c => egX b (3 - 1) c) 1 :=
  incremental_forward_reads_last_frame egL (initState ℤ) egX 3 (by decide)

end LinearizedConv
